import Mathlib

/-!
Verification of the hand-tracker pipeline (`hand-detection.ipynb`):
background accumulation (`calc_accum_avg`), hand segmentation (`segment`)
and finger counting (`count_fingers`), together with the steady-state
session loop that drives them.

Modelling conventions:
* A grayscale image is a function from pixel positions to intensities
  (`Image` for the `uint8` frames, `ImageQ` for the `float32` background
  accumulator, idealized with exact rational arithmetic).
* Contours are lists of integer points, as produced by `cv2.findContours`.
  The border-following algorithm inside OpenCV's `findContours` is kept
  abstract: the list of contours it extracts from a mask is passed to the
  embedded functions as an explicit argument, and everything downstream of
  that call is modelled concretely.
* `cv2.convexHull` is likewise kept abstract: `count_fingers` receives the
  hull point list directly.  OpenCV's `convexHull` raises on an empty
  input contour and returns a nonempty hull for a nonempty contour, so the
  empty hull models exactly the empty input contour (on which the source
  faults: `convexHull` and the subsequent numpy `argmin` both raise).
* `np.pi` is the IEEE-754 double nearest π, an exact rational (`pi64`).
* `int(0.9 * max_distance)` truncates; since `max_distance` is a Euclidean
  distance √k with k a natural number, ⌊0.9·√k⌋ = Nat.sqrt (81·k / 100),
  which is how the radius is computed here, exactly.
-/

namespace HandTracker

/-- A pixel position (row, column). -/
abbrev Pos := ℕ × ℕ

/-- A grayscale `uint8` frame: intensity at each pixel. -/
abbrev Image := Pos → ℕ

/-- The `float32` background accumulator, idealized over ℚ. -/
abbrev ImageQ := Pos → ℚ

/-- A 2-D integer point (x, y), as stored in an OpenCV contour. -/
abbrev Point := ℤ × ℤ

/-- A contour: the list of boundary points returned by `cv2.findContours`. -/
abbrev Contour := List Point

/-! ### Background accumulation (`calc_accum_avg`) -/

/-- `calc_accum_avg(frame, accumulated_weight, background)`:
if `background is None` the frame is copied (promoted to floating point),
otherwise `cv2.accumulateWeighted` updates every pixel as
`bg = bg*(1-w) + frame*w`.  Returns the new background. -/
def calc_accum_avg (frame : Image) (w : ℚ) (background : Option ImageQ) :
    ImageQ :=
  match background with
  | none => fun pos => (frame pos : ℚ)
  | some bg => fun pos => bg pos * (1 - w) + (frame pos : ℚ) * w

/-- The session's fixed `accumulated_weight = 0.5`. -/
def accumulated_weight : ℚ := 1 / 2

/-- Iterating the background update from the unset state (`background = None`)
with one constant frame, as the warm-up loop does. -/
def iterBackground (frame : Image) : ℕ → Option ImageQ
  | 0 => none
  | k + 1 => some (calc_accum_avg frame accumulated_weight
      (iterBackground frame k))

/-! ### Segmentation (`segment`) -/

/-- `background.astype('uint8')`: float→integer conversion truncates toward
zero; accumulator values lie in [0, 255] so this is the floor. -/
def castU8 (v : ℚ) : ℕ := (Int.floor v).toNat

/-- `cv2.absdiff` on single pixels: absolute difference of intensities. -/
def absdiff (a b : ℕ) : ℕ := ((a : ℤ) - (b : ℤ)).natAbs

/-- `cv2.threshold(diff, thr, 255, cv2.THRESH_BINARY)` per pixel:
255 where the value strictly exceeds the threshold, 0 elsewhere. -/
def thresholdBin (thr d : ℕ) : ℕ := if thr < d then 255 else 0

/-- The binarized difference mask built by `segment`: per pixel, the absolute
difference between the `uint8`-cast background and the frame, thresholded. -/
def maskOf (frame : Image) (background : ImageQ) (thr : ℕ) : Image :=
  fun pos => thresholdBin thr (absdiff (castU8 (background pos)) (frame pos))

/-- The doubled signed (shoelace) area of a closed polygonal contour. -/
def shoelace2 (c : Contour) : ℤ :=
  (c.zip (c.rotate 1)).foldl
    (fun s pq => s + (pq.1.1 * pq.2.2 - pq.2.1 * pq.1.2)) 0

/-- `cv2.contourArea`: the absolute enclosed area of a contour. -/
def contourArea (c : Contour) : ℚ := ((shoelace2 c).natAbs : ℚ) / 2

/-- `max(contours, key=cv2.contourArea)` starting from a current best:
Python's `max` scans left to right and replaces the best only on a strictly
larger key, so the first maximum wins. -/
def pickMaxArea (best : Contour) : List Contour → Contour
  | [] => best
  | c :: rest =>
      pickMaxArea (if contourArea best < contourArea c then c else best) rest

/-- `segment(frame, background, threshold_min=25)`.  `contours` is the output
of `cv2.findContours(thresholded, RETR_EXTERNAL, CHAIN_APPROX_SIMPLE)`,
kept abstract.  Returns `none` when no contours are found, otherwise the
thresholded mask together with the largest-area contour. -/
def segment (frame : Image) (background : ImageQ) (thr : ℕ)
    (contours : List Contour) : Option (Image × Contour) :=
  match contours with
  | [] => none
  | c :: rest => some (maskOf frame background thr, pickMaxArea c rest)

/-! ### Finger counting (`count_fingers`) -/

/-- First minimizer of `f` in `p :: ps`: numpy's `argmin` keeps the earliest
index attaining the minimum, i.e. the best is replaced only on a strict
decrease. -/
def firstMinBy (f : Point → ℤ) (p : Point) (ps : List Point) : Point :=
  ps.foldl (fun best q => if f q < f best then q else best) p

/-- First maximizer of `f` in `p :: ps` (numpy's `argmax`). -/
def firstMaxBy (f : Point → ℤ) (p : Point) (ps : List Point) : Point :=
  ps.foldl (fun best q => if f best < f q then q else best) p

/-- `top`: hull point with minimal y (earliest on ties). -/
def topPoint (p : Point) (ps : List Point) : Point := firstMinBy Prod.snd p ps

/-- `bottom`: hull point with maximal y (earliest on ties). -/
def bottomPoint (p : Point) (ps : List Point) : Point :=
  firstMaxBy Prod.snd p ps

/-- `left`: hull point with minimal x (earliest on ties). -/
def leftPoint (p : Point) (ps : List Point) : Point := firstMinBy Prod.fst p ps

/-- `right`: hull point with maximal x (earliest on ties). -/
def rightPoint (p : Point) (ps : List Point) : Point :=
  firstMaxBy Prod.fst p ps

/-- `cX = (left[0] + right[0]) // 2` (Python floor division). -/
def handCX (p : Point) (ps : List Point) : ℤ :=
  ((leftPoint p ps).1 + (rightPoint p ps).1).fdiv 2

/-- `cY = (top[1] + bottom[1]) // 2` (Python floor division). -/
def handCY (p : Point) (ps : List Point) : ℤ :=
  ((topPoint p ps).2 + (bottomPoint p ps).2).fdiv 2

/-- Squared Euclidean distance between two integer points. -/
def distSq (a b : Point) : ℤ := (a.1 - b.1) ^ 2 + (a.2 - b.2) ^ 2

/-- The maximal squared distance from the hand center to the four extreme
points `[left, right, top, bottom]`; its square root is the source's
`max_distance`. -/
def maxDistSq (p : Point) (ps : List Point) : ℤ :=
  let c : Point := (handCX p ps, handCY p ps)
  max (max (distSq c (leftPoint p ps)) (distSq c (rightPoint p ps)))
    (max (distSq c (topPoint p ps)) (distSq c (bottomPoint p ps)))

/-- `radius = int(0.9 * max_distance)`: truncation of 0.9·√k where
k = `maxDistSq`, computed exactly as ⌊√(81k/100)⌋ = `Nat.sqrt (81*k/100)`. -/
def hullRadius (p : Point) (ps : List Point) : ℕ :=
  Nat.sqrt (81 * (maxDistSq p ps).toNat / 100)

/-- `np.pi`: the IEEE-754 double closest to π, an exact rational. -/
def pi64 : ℚ := 884279719003555 / 281474976710656

/-- `cv2.boundingRect`: upright bounding rectangle `(x, y, w, h)` of a
contour, with inclusive extents (`w = max x - min x + 1`). -/
def boundingRect : Contour → ℤ × ℤ × ℤ × ℤ
  | [] => (0, 0, 0, 0)
  | q :: qs =>
      let mnx := qs.foldl (fun m r => min m r.1) q.1
      let mxx := qs.foldl (fun m r => max m r.1) q.1
      let mny := qs.foldl (fun m r => min m r.2) q.2
      let mxy := qs.foldl (fun m r => max m r.2) q.2
      (mnx, mny, mxx - mnx + 1, mxy - mny + 1)

/-- `out_of_wrist = (cY + (cY * 0.25)) > (y + h)`. -/
def out_of_wrist (cY yPlusH : ℤ) : Bool :=
  decide ((yPlusH : ℚ) < (cY : ℚ) + (cY : ℚ) * (1 / 4))

/-- `limit_points = ((2 * np.pi * radius * 0.25) > contour.shape[0])`. -/
def limit_points (radius n : ℕ) : Bool :=
  decide ((n : ℚ) < 2 * pi64 * (radius : ℚ) * (1 / 4))

/-- The per-contour acceptance test of `count_fingers`:
`out_of_wrist and limit_points`, with `(x, y, w, h)` the contour's bounding
rectangle and `contour.shape[0]` its point count. -/
def fingerTest (cY : ℤ) (radius : ℕ) (c : Contour) : Bool :=
  out_of_wrist cY ((boundingRect c).2.1 + (boundingRect c).2.2.2)
    && limit_points radius c.length

/-- The accumulation loop of `count_fingers`: one pass over the contours
found in the ring-intersected mask, incrementing the count when a contour
passes both per-contour tests. -/
def countLoop (cY : ℤ) (radius : ℕ) (contours : List Contour) : ℕ :=
  contours.foldl
    (fun count c => if fingerTest cY radius c then count + 1 else count) 0

/-- `count_fingers(thresholded, hand_segment)`.  `hull` is the output of
`cv2.convexHull(hand_segment)`, kept abstract (empty hull ⟺ empty input
contour, on which the source raises — modelled as `none`).  `ringContours`
is the output of `cv2.findContours` on the ring-intersected mask
(`CHAIN_APPROX_NONE`), kept abstract.  Returns the finger count. -/
def count_fingers (hull : Contour) (ringContours : List Contour) :
    Option ℕ :=
  match hull with
  | [] => none
  | p :: ps => some (countLoop (handCY p ps) (hullRadius p ps) ringContours)

/-! ### The session loop -/

/-- The mutable state threaded through the capture loop: the shared
`background` accumulator and the frame counter `num_frames`. -/
structure SessionState where
  background : Option ImageQ
  numFrames : ℕ

/-- One iteration of the capture loop, restricted to the pipeline state:
while `num_frames < 60` the frame feeds the background accumulator;
afterwards `segment` runs (returning its result, shown on screen) and the
background receives no write.  `num_frames` increments every tick.
`contours` abstracts the `cv2.findContours` call inside `segment`. -/
def sessionStep (s : SessionState) (gray : Image) (contours : List Contour) :
    SessionState × Option (Image × Contour) :=
  if s.numFrames < 60 then
    ({ background := some (calc_accum_avg gray accumulated_weight
          s.background), numFrames := s.numFrames + 1 }, none)
  else
    ({ s with numFrames := s.numFrames + 1 },
      match s.background with
      | none => none
      | some bg => segment gray bg 25 contours)

/-! ### Theorems -/

/-- C6: the first call to the background update (state still unset/`None`)
returns a background whose every pixel equals the corresponding pixel of
the frame promoted to floating point, with no smoothing applied (the
weight is not even consulted). -/
theorem calc_accum_avg_first_call (F : Image) (w : ℚ) (pos : Pos) :
    calc_accum_avg F w none pos = (F pos : ℚ) := rfl

/-- C7: a call with an already-initialized background updates every pixel to
`bg*(1-w) + frame*w` with the fixed weight `w = 0.5`. -/
theorem calc_accum_avg_subsequent (F : Image) (bg : ImageQ) (pos : Pos) :
    calc_accum_avg F accumulated_weight (some bg) pos
      = bg pos * (1 - 1 / 2) + (F pos : ℚ) * (1 / 2) := rfl

/-- C8: iterating the background update from the unset state with a constant
frame `F` converges to `F`: after `k ≥ 1` applications the state exists,
every pixel equals the corresponding pixel of `F` exactly, and hence the
pointwise distance to `F` is below every positive ε (with `w = 0.5` the
first call already copies `F`, so the distance is 0 from `k = 1` on and
never has to decrease further). -/
theorem iterBackground_converges (F : Image) (k : ℕ) (hk : 1 ≤ k) :
    ∃ b, iterBackground F k = some b ∧
      ∀ pos, b pos = (F pos : ℚ) ∧
        ∀ ε : ℚ, 0 < ε → |b pos - (F pos : ℚ)| < ε := by
  induction k with
  | zero => exact absurd hk (by decide)
  | succ n ih =>
    refine ⟨calc_accum_avg F accumulated_weight (iterBackground F n),
      rfl, fun pos => ?_⟩
    have hpt : calc_accum_avg F accumulated_weight
        (iterBackground F n) pos = (F pos : ℚ) := by
      match n, ih with
      | 0, _ => rfl
      | m + 1, ih =>
        obtain ⟨b, hb, hbp⟩ := ih (Nat.le_add_left 1 m)
        rw [hb]
        show b pos * (1 - accumulated_weight)
            + (F pos : ℚ) * accumulated_weight = (F pos : ℚ)
        rw [(hbp pos).1, accumulated_weight]
        ring
    refine ⟨hpt, fun ε hε => ?_⟩
    rw [hpt, sub_self, abs_zero]
    exact hε

/-- C8 witness: two applications with the constant frame 7. -/
theorem iterBackground_converges_witness :
    1 ≤ 2 ∧ ∃ b, iterBackground (fun _ => 7) 2 = some b ∧
      ∀ pos, b pos = ((7 : ℕ) : ℚ) ∧
        ∀ ε : ℚ, 0 < ε → |b pos - ((7 : ℕ) : ℚ)| < ε :=
  ⟨by decide, iterBackground_converges (fun _ => 7) 2 (by decide)⟩

/-- C5: `segment` returns the absence value (`None`) if and only if zero
external contours are found in the mask; the function is total, so absence
is the only non-result. -/
theorem segment_none_iff (frame : Image) (background : ImageQ) (thr : ℕ)
    (contours : List Contour) :
    segment frame background thr contours = none ↔ contours = [] := by
  cases contours <;> simp [segment]

/-- C9: once warm-up is over (`num_frames ≥ 60`), a session tick runs
`segment` and leaves the background state untouched: `segment` only reads
the background (through a `uint8` cast of its values), and the steady-state
branch of the loop performs no write. -/
theorem background_frozen_after_warmup (s : SessionState) (gray : Image)
    (contours : List Contour) (h : 60 ≤ s.numFrames) :
    (sessionStep s gray contours).1.background = s.background := by
  simp [sessionStep, Nat.not_lt.mpr h]

/-- C9 witness: a tick at frame number 60 with a concrete background. -/
theorem background_frozen_after_warmup_witness :
    60 ≤ (60 : ℕ) ∧
      (sessionStep ⟨some fun _ => (5 : ℚ), 60⟩
          (fun _ => 3) []).1.background = some fun _ => (5 : ℚ) :=
  ⟨by decide, background_frozen_after_warmup
    ⟨some fun _ => (5 : ℚ), 60⟩ (fun _ => 3) [] (by decide)⟩

/-! #### Helper lemmas for the segmenter -/

/-- The thresholded mask is 255 exactly where the absolute difference
between the `uint8`-cast background and the frame exceeds the threshold,
and 0 elsewhere. -/
theorem maskOf_char (frame : Image) (background : ImageQ) (thr : ℕ)
    (pos : Pos) :
    (maskOf frame background thr pos = 255 ↔
      thr < absdiff (castU8 (background pos)) (frame pos)) ∧
    (maskOf frame background thr pos = 0 ↔
      ¬ thr < absdiff (castU8 (background pos)) (frame pos)) := by
  by_cases h : thr < absdiff (castU8 (background pos)) (frame pos)
  all_goals simp [maskOf, thresholdBin, h]

/-- `pickMaxArea` returns a contour whose area dominates the starting
candidate and every listed contour, and — unless it is the starting
candidate itself — it is a list element that strictly exceeds the
starting candidate and every element before it (Python `max` keeps the
first maximum). -/
theorem pickMaxArea_spec (best : Contour) (cs : List Contour) :
    contourArea best ≤ contourArea (pickMaxArea best cs) ∧
      (∀ c ∈ cs, contourArea c ≤ contourArea (pickMaxArea best cs)) ∧
      (pickMaxArea best cs = best ∨
        ∃ (i : ℕ) (hi : i < cs.length),
          cs.get ⟨i, hi⟩ = pickMaxArea best cs ∧
          contourArea best < contourArea (pickMaxArea best cs) ∧
          ∀ (j : ℕ) (hj : j < cs.length), j < i →
            contourArea (cs.get ⟨j, hj⟩)
              < contourArea (pickMaxArea best cs)) := by
  induction cs generalizing best with
  | nil => exact ⟨le_refl _, by simp, Or.inl rfl⟩
  | cons c rest ih =>
    by_cases hc : contourArea best < contourArea c
    · have hred : pickMaxArea best (c :: rest) = pickMaxArea c rest := by
        simp [pickMaxArea, hc]
      obtain ⟨hA, hB, hC⟩ := ih c
      rw [hred]
      refine ⟨le_of_lt (lt_of_lt_of_le hc hA), ?_, ?_⟩
      · intro x hx
        rcases List.mem_cons.mp hx with rfl | hx
        · exact hA
        · exact hB x hx
      · rcases hC with heq | ⟨i, hi, hget, hlt, hstrict⟩
        · refine Or.inr ⟨0, by simp, by simpa using heq.symm, ?_, ?_⟩
          · rw [heq]; exact hc
          · intro j hj hj0; omega
        · refine Or.inr ⟨i + 1, by simpa using hi, ?_, lt_trans hc hlt, ?_⟩
          · simpa using hget
          · intro j hj hji
            cases j with
            | zero => simpa using hlt
            | succ j' =>
              have := hstrict j' (by simpa using hj) (by omega)
              simpa using this
    · have hred : pickMaxArea best (c :: rest) = pickMaxArea best rest := by
        simp [pickMaxArea, hc]
      obtain ⟨hA, hB, hC⟩ := ih best
      rw [hred]
      refine ⟨hA, ?_, ?_⟩
      · intro x hx
        rcases List.mem_cons.mp hx with rfl | hx
        · exact le_trans (not_lt.mp hc) hA
        · exact hB x hx
      · rcases hC with heq | ⟨i, hi, hget, hlt, hstrict⟩
        · exact Or.inl heq
        · refine Or.inr ⟨i + 1, by simpa using hi, ?_, hlt, ?_⟩
          · simpa using hget
          · intro j hj hji
            cases j with
            | zero => simpa using lt_of_le_of_lt (not_lt.mp hc) hlt
            | succ j' =>
              have := hstrict j' (by simpa using hj) (by omega)
              simpa using this

/-! #### Claim theorem for the segmenter -/

/-- C2: when `segment` returns a result, the mask assigns 255 to exactly the
pixels whose absolute frame/background difference exceeds the threshold
and 0 to all others, and the returned contour is a found contour of
maximal enclosed area, ties broken by the first-encountered maximum
(every earlier contour has strictly smaller area). -/
theorem segment_mask_and_max_contour (frame : Image) (background : ImageQ)
    (thr : ℕ) (c0 : Contour) (rest : List Contour) :
    ∃ sel, segment frame background thr (c0 :: rest)
        = some (maskOf frame background thr, sel) ∧
      (∀ pos, (maskOf frame background thr pos = 255 ↔
            thr < absdiff (castU8 (background pos)) (frame pos)) ∧
        (maskOf frame background thr pos = 0 ↔
            ¬ thr < absdiff (castU8 (background pos)) (frame pos))) ∧
      ∃ (i : ℕ) (hi : i < (c0 :: rest).length),
        (c0 :: rest).get ⟨i, hi⟩ = sel ∧
        (∀ (j : ℕ) (hj : j < (c0 :: rest).length),
          contourArea ((c0 :: rest).get ⟨j, hj⟩) ≤ contourArea sel) ∧
        ∀ (j : ℕ) (hj : j < (c0 :: rest).length), j < i →
          contourArea ((c0 :: rest).get ⟨j, hj⟩) < contourArea sel := by
  refine ⟨pickMaxArea c0 rest, rfl,
    fun pos => maskOf_char frame background thr pos, ?_⟩
  obtain ⟨hA, hB, hC⟩ := pickMaxArea_spec c0 rest
  rcases hC with heq | ⟨i, hi, hget, hlt, hstrict⟩
  · refine ⟨0, by simp, by simpa using heq.symm, ?_, ?_⟩
    · intro j hj
      cases j with
      | zero => simpa using hA
      | succ j' =>
        have hj' : j' < rest.length := by simpa using hj
        have := hB (rest.get ⟨j', hj'⟩) (rest.get_mem j' hj')
        simpa using this
    · intro j hj hj0
      omega
  · refine ⟨i + 1, by simpa using hi, by simpa using hget, ?_, ?_⟩
    · intro j hj
      cases j with
      | zero => simpa using hA
      | succ j' =>
        have hj' : j' < rest.length := by simpa using hj
        have := hB (rest.get ⟨j', hj'⟩) (rest.get_mem j' hj')
        simpa using this
    · intro j hj hji
      cases j with
      | zero => simpa using hlt
      | succ j' =>
        have := hstrict j' (by simpa using hj) (by omega)
        simpa using this

/-! #### Helper lemmas for the finger counter -/

/-- The counting fold, from any starting count, adds the number of accepted
contours. -/
theorem countFold_eq_add_filter (cY : ℤ) (radius : ℕ) (cs : List Contour)
    (acc : ℕ) :
    cs.foldl (fun count c => if fingerTest cY radius c then count + 1
        else count) acc
      = acc + (cs.filter (fingerTest cY radius)).length := by
  induction cs generalizing acc with
  | nil => simp
  | cons c rest ih =>
    cases h : fingerTest cY radius c
    all_goals simp [List.filter_cons, h, ih]
    all_goals omega

/-- `count_fingers`'s loop counts exactly the contours passing both tests. -/
theorem countLoop_eq_filter (cY : ℤ) (radius : ℕ) (cs : List Contour) :
    countLoop cY radius cs = (cs.filter (fingerTest cY radius)).length := by
  simpa using countFold_eq_add_filter cY radius cs 0

/-- With radius 0 the circumference test `2π·0·0.25 > n` rejects every
contour. -/
theorem limit_points_zero_radius (n : ℕ) : limit_points 0 n = false := by
  simp only [limit_points, decide_eq_false_iff_not, not_lt, Nat.cast_zero,
    mul_zero, zero_mul]
  positivity

/-- Floor division of a doubled integer by 2. -/
theorem fdiv_add_self (a : ℤ) : (a + a).fdiv 2 = a := by
  rw [← two_mul]
  exact Int.mul_fdiv_cancel_left a two_ne_zero

/-- For a one-point hull all four extreme points coincide with the point,
so the maximal center-to-extreme squared distance is 0. -/
theorem maxDistSq_single (p : Point) : maxDistSq p [] = 0 := by
  simp [maxDistSq, leftPoint, rightPoint, topPoint, bottomPoint,
    firstMinBy, firstMaxBy, handCX, handCY, distSq, fdiv_add_self]

/-! #### Claim theorems for the finger counter -/

/-- C10: for a single-point contour (whose convex hull is that point, so all
four extreme points coincide, the hand center equals the point and the
computed radius is 0), `count_fingers` returns 0 without faulting: the
point-count test `0.25·2π·0 > n` fails for every extracted contour. -/
theorem count_fingers_single_point (p : Point) (cs : List Contour) :
    hullRadius p [] = 0 ∧ count_fingers [p] cs = some 0 := by
  have hr : hullRadius p [] = 0 := by
    simp [hullRadius, maxDistSq_single]
  refine ⟨hr, ?_⟩
  show some (countLoop (handCY p []) (hullRadius p []) cs) = some 0
  rw [hr, countLoop_eq_filter]
  have hf : ∀ c : Contour, fingerTest (handCY p []) 0 c = false := by
    intro c
    simp [fingerTest, limit_points_zero_radius]
  simp [List.filter_eq_nil_iff, hf]

/-- C4: the source has no defensive skip of degenerate contours.  On a
zero-point contour it faults (`cv2.convexHull` and the numpy `argmin` on
the empty hull raise, modelled as `none`), and a zero-area contour (here
the segment from (0,0) to (0,100)) is processed like any other and can
contribute a nonzero count (here a one-point ring contour at (0,5) passes
both tests), contradicting "skipped, contributes 0". -/
theorem count_fingers_degenerate_not_skipped :
    count_fingers [] [] = none ∧
      count_fingers [((0 : ℤ), (0 : ℤ)), (0, 100)] [[(0, 5)]] = some 1 := by
  refine ⟨rfl, ?_⟩
  have hcY : handCY ((0 : ℤ), (0 : ℤ)) [((0 : ℤ), (100 : ℤ))] = 50 := by
    decide
  have hm : maxDistSq ((0 : ℤ), (0 : ℤ)) [((0 : ℤ), (100 : ℤ))] = 2500 := by
    decide
  have hr : hullRadius ((0 : ℤ), (0 : ℤ)) [((0 : ℤ), (100 : ℤ))] = 45 := by
    rw [hullRadius, hm]
    have h2025 : (81 * (2500 : ℤ).toNat / 100 : ℕ) = 2025 := by decide
    rw [h2025]
    exact (Nat.eq_sqrt.mpr (by norm_num)).symm
  have ht : fingerTest 50 45 [((0 : ℤ), (5 : ℤ))] = true := by
    have hb : boundingRect [((0 : ℤ), (5 : ℤ))] = (0, 5, 1, 1) := by decide
    rw [fingerTest, hb, Bool.and_eq_true]
    constructor
    · simp only [out_of_wrist, decide_eq_true_eq]
      norm_num
    · simp only [limit_points, pi64, decide_eq_true_eq]
      norm_num
  show some (countLoop (handCY ((0 : ℤ), (0 : ℤ)) [((0 : ℤ), (100 : ℤ))])
      (hullRadius ((0 : ℤ), (0 : ℤ)) [((0 : ℤ), (100 : ℤ))])
      [[((0 : ℤ), (5 : ℤ))]]) = some 1
  rw [hcY, hr, countLoop_eq_filter]
  simp [List.filter_cons, ht]

/-- C3 counterexample: for the hull {(0,0), (2,0)} the four extreme points
are (0,0), (0,0), (0,0), (2,0), the hand center is (1,0) and the maximal
squared distance is 1, i.e. `D = 1`; the source computes
`radius = int(0.9 * 1) = 0`, but `round(0.9 * 1) = 1`. -/
theorem hullRadius_round_counterexample :
    maxDistSq ((0 : ℤ), (0 : ℤ)) [(2, 0)] = 1 ∧
      (hullRadius ((0 : ℤ), (0 : ℤ)) [(2, 0)] : ℤ) ≠ round ((9 : ℚ) / 10 * 1) := by
  refine ⟨by decide, ?_⟩
  have h1 : round ((9 : ℚ) / 10 * 1) = 1 := by
    rw [round_eq]
    norm_num
  have h2 : hullRadius ((0 : ℤ), (0 : ℤ)) [(2, 0)] = 0 := by decide
  rw [h1, h2]
  decide

/-- C3 amended: the sampling-band radius is the truncation `⌊0.9·D⌋` of
`0.9·D` (Python's `int()` truncates toward zero), not `round(0.9·D)`:
with `k = D²` the squared maximal extreme-point distance, the radius `r`
satisfies `100·r² ≤ 81·k < 100·(r+1)²`, which characterizes `r = ⌊0.9·√k⌋`. -/
theorem hullRadius_eq_floor (p : Point) (ps : List Point) :
    100 * hullRadius p ps ^ 2 ≤ 81 * (maxDistSq p ps).toNat ∧
      81 * (maxDistSq p ps).toNat < 100 * (hullRadius p ps + 1) ^ 2 := by
  set k := (maxDistSq p ps).toNat with hk
  have hr : hullRadius p ps = Nat.sqrt (81 * k / 100) := rfl
  constructor
  · have h1 : Nat.sqrt (81 * k / 100) ^ 2 ≤ 81 * k / 100 :=
      Nat.sqrt_le' (81 * k / 100)
    have h2 : 100 * (81 * k / 100) ≤ 81 * k := Nat.mul_div_le (81 * k) 100
    calc 100 * hullRadius p ps ^ 2
        ≤ 100 * (81 * k / 100) := by rw [hr]; exact Nat.mul_le_mul_left 100 h1
      _ ≤ 81 * k := h2
  · have h3 : 81 * k / 100 < (Nat.sqrt (81 * k / 100) + 1) ^ 2 :=
      Nat.lt_succ_sqrt' (81 * k / 100)
    have h4 : 100 * (81 * k / 100) + 81 * k % 100 = 81 * k :=
      Nat.div_add_mod (81 * k) 100
    have h5 : 81 * k % 100 < 100 := Nat.mod_lt _ (by omega)
    rw [hr]
    nlinarith [h3, h4, h5]

/-- C1: `count_fingers` counts exactly the extracted contours passing both
per-contour tests: with bounding rectangle `(x, y, w, h)` and point count
`n`, a contour is counted iff `cY + 0.25·cY > y + h` and
`n < 0.25·2π·r`, and the returned count is the number of such contours. -/
theorem count_fingers_counts_both_tests (p : Point) (ps : List Point)
    (cs : List Contour) :
    count_fingers (p :: ps) cs = some ((cs.filter (fun c =>
      decide ((((boundingRect c).2.1 + (boundingRect c).2.2.2 : ℤ) : ℚ)
          < (handCY p ps : ℚ) + (handCY p ps : ℚ) * (1 / 4))
        && decide ((c.length : ℚ)
          < 2 * pi64 * (hullRadius p ps : ℚ) * (1 / 4)))).length) := by
  show some (countLoop (handCY p ps) (hullRadius p ps) cs) = _
  rw [countLoop_eq_filter]
  rfl

end HandTracker
